import Mathlib

/-!
Shallow embedding of the dicer discrete-distribution engine
(`src/discrete.rs`).

A `Distribution` stores occurrence counts per integer value:
index `i` of `occurrence_by_value` holds the number of occurrences of
the value `offset + i`.  Rust `usize` counts are modelled as `Nat` and
`isize` values as `Int` (overflow is not modelled); `Ratio<usize>` is
modelled as `ℚ` (both reduce fractions on construction, so equality
agrees).  Fallible operations return `Except Error`.
-/

namespace Dicer

/-- The occurrence table of `src/discrete.rs` `struct Distribution`. -/
structure Distribution where
  occurrence_by_value : List Nat
  offset : Int
  deriving Repr, DecidableEq

namespace Distribution

/-- `Distribution::die`: uniform distribution on `[1, size]`. -/
def die (size : Nat) : Distribution :=
  { occurrence_by_value := List.replicate size 1, offset := 1 }

/-- `Distribution::modifier`: point mass at `value`. -/
def modifier (value : Int) : Distribution :=
  { occurrence_by_value := [1], offset := value }

/-- `Distribution::total`: sum of all stored occurrence counts. -/
def total (d : Distribution) : Nat :=
  d.occurrence_by_value.sum

/-- `Distribution::probability`: exact probability of `value`;
`Ratio::new(occ, total)` becomes `(occ : ℚ) / (total : ℚ)`. -/
def probability (d : Distribution) (value : Int) : ℚ :=
  let index := value - d.offset
  if 0 ≤ index ∧ index < (d.occurrence_by_value.length : Int) then
    (d.occurrence_by_value.getD index.toNat 0 : ℚ) / (d.total : ℚ)
  else 0

/-- The occurrence count stored for `value` (0 outside the stored range);
the numerator `probability` looks up. -/
def occAt (d : Distribution) (value : Int) : Nat :=
  let index := value - d.offset
  if 0 ≤ index ∧ index < (d.occurrence_by_value.length : Int) then
    d.occurrence_by_value.getD index.toNat 0
  else 0

/-- `Distribution::min`: the stored range's lower bound. -/
def min (d : Distribution) : Int := d.offset

/-- `Distribution::max`: the stored range's upper bound (inclusive). -/
def max (d : Distribution) : Int :=
  d.offset + (d.occurrence_by_value.length : Int) - 1

/-- The `Occurrences` iterator walking values upward from `base`,
skipping zero-occurrence entries. -/
def occList (base : Int) : List Nat → List (Int × Nat)
  | [] => []
  | occ :: rest =>
    if occ = 0 then occList (base + 1) rest
    else (base, occ) :: occList (base + 1) rest

/-- `Distribution::occurrences`: ascending `(value, occurrence)` pairs with
nonzero occurrence. -/
def occurrences (d : Distribution) : List (Int × Nat) :=
  occList d.offset d.occurrence_by_value

/-- `Distribution::clean`: strip leading and trailing zero entries. -/
def clean (d : Distribution) : Distribution :=
  let leading := (d.occurrence_by_value.takeWhile (· = 0)).length
  let l1 := d.occurrence_by_value.drop leading
  let trailing := (l1.reverse.takeWhile (· = 0)).length
  { occurrence_by_value := l1.take (l1.length - trailing),
    offset := d.offset + leading }

/-- `Distribution::add_occurrences`: grow the stored range as needed and
accumulate `occ` into the slot for `value`.  Growing downward
(`value < offset`) is the resize-then-swap loop, whose net effect is
prepending zeros. -/
def addOccurrences (d : Distribution) (value : Int) (occ : Nat) : Distribution :=
  let d :=
    if value < d.offset then
      { occurrence_by_value :=
          List.replicate (d.offset - value).toNat 0 ++ d.occurrence_by_value,
        offset := value }
    else d
  let index := (value - d.offset).toNat
  let l :=
    if d.occurrence_by_value.length ≤ index then
      d.occurrence_by_value ++
        List.replicate (index + 1 - d.occurrence_by_value.length) 0
    else d.occurrence_by_value
  { occurrence_by_value := l.set index (l.getD index 0 + occ),
    offset := d.offset }

/-- `Distribution::empty`: the transient empty accumulator. -/
def empty : Distribution :=
  { occurrence_by_value := [], offset := 0 }

/-- The shared loop shape of `add`, `product`, `floor` and `comparison`:
for each occurring pair, accumulate `occ1 * occ2` into the slot for
`g value1 value2`, starting from the empty accumulator. -/
def combineWith (g : Int → Int → Int) (a b : Distribution) : Distribution :=
  a.occurrences.foldl
    (fun d pa =>
      b.occurrences.foldl
        (fun d pb => addOccurrences d (g pa.1 pb.1) (pa.2 * pb.2)) d)
    Distribution.empty

/-- `impl Add for &Distribution`: convolution of independent distributions. -/
def add (a b : Distribution) : Distribution :=
  combineWith (· + ·) a b

/-- `impl Neg for &Distribution`: reflect about zero.  The Rust code computes
`magnitude = (len - 1) as isize + offset` in `usize` first; for a non-empty
distribution (the only case the program reaches without panicking in debug
builds) that equals the `Int` computation used here. -/
def neg (d : Distribution) : Distribution :=
  let magnitude : Int := (d.occurrence_by_value.length : Int) - 1 + d.offset
  { occurrence_by_value := d.occurrence_by_value.reverse,
    offset := -magnitude }

end Distribution

/-- Modelled from the spec: the three evaluation errors of §7, each tagged
with the textual form of the offending expression (`Error` itself lives in
the crate root, outside `src/discrete.rs`). -/
inductive Error where
  | NegativeCount (text : String)
  | KeepTooFew (text : String)
  | DivideByZero (text : String)
  deriving Repr, DecidableEq

/-- Modelled from the spec: comparison operators `{>, >=, ==, <=, <}`
(declared in the crate root, outside `src/discrete.rs`). -/
inductive ComparisonOp where
  | Gt
  | Ge
  | Eq
  | Le
  | Lt
  deriving Repr, DecidableEq

/-- Modelled from the spec §3: a ranker keeps all rolled values, the `n`
highest, or the `n` lowest (declared in the crate root). -/
inductive Ranker where
  | All
  | Highest (n : Nat)
  | Lowest (n : Nat)
  deriving Repr, DecidableEq

/-- Modelled from the spec §3: `Ranker::count`, the carried keep-count
(declared in the crate root).  `All` keeps however many dice are rolled, so
it carries no requirement of its own: its count is 0, which also makes the
keep-too-few precondition in `repeat` vacuous for `All`. -/
def Ranker.count : Ranker → Nat
  | .All => 0
  | .Highest n => n
  | .Lowest n => n

/-- Modelled from the spec §3: the expression tree produced by the external
parser (declared in the crate root, outside `src/discrete.rs`). -/
inductive Expression where
  | Modifier (m : Int)
  | Die (d : Nat)
  | Negated (e : Expression)
  | Repeated (count : Expression) (value : Expression) (ranker : Ranker)
  | Product (a b : Expression)
  | Floor (a b : Expression)
  | Sum (es : List Expression)
  | Comparison (a : Expression) (op : ComparisonOp) (b : Expression)
  deriving Repr

/-- `keep_all` / `keep_highest` / `keep_lowest` plus the `match ranker`
dispatch inside `repeat`.  Rust's `sort_by` is a stable sort, modelled with
`List.mergeSort`. -/
def rankerFilter (ranker : Ranker) (v : List Int) (n : Nat) : List Int :=
  match ranker with
  | .All => v
  | .Highest _ => (v.mergeSort (fun v1 v2 => v2 ≤ v1)).take n
  | .Lowest _ => (v.mergeSort (fun v1 v2 => v1 ≤ v2)).take n

/-- itertools `multi_cartesian_product` over a list of (already materialised)
iterators, in its lexicographic order; the product of zero iterators yields
the single empty combination. -/
def multiCartesian : List (List (Int × Nat)) → List (List (Int × Nat))
  | [] => [[]]
  | l :: ls => l.flatMap (fun x => (multiCartesian ls).map (x :: ·))

/-- `fn repeat`: roll `count` dice of `value`, keep per `ranker`.  The two
precondition checks use `count.min()` and happen before any enumeration.
`toStr` stands for the external `Display` rendering used to tag errors.
The `count as usize` cast is modelled by `Int.toNat`; it is only reached
for counts `≥ count.min() ≥ 0`. -/
def repeatDist (toStr : Expression → String) (expression : Expression)
    (count value : Distribution) (ranker : Ranker) : Except Error Distribution :=
  if count.min < 0 then
    .error (.NegativeCount (toStr expression))
  else if count.min.toNat < ranker.count then
    .error (.KeepTooFew (toStr expression))
  else
    .ok <|
      count.occurrences.foldl
        (fun result p =>
          let dice := List.replicate p.1.toNat value.occurrences
          (multiCartesian dice).foldl
            (fun result valueSet =>
              let values := valueSet.map (·.1)
              let frequencies := valueSet.map (·.2)
              let occurrences := frequencies.prod * p.2
              let kept := rankerFilter ranker values ranker.count
              Distribution.addOccurrences result kept.sum occurrences)
            result)
        Distribution.empty

/-- `fn product`: cross-product accumulation on `v1 * v2`. -/
def product (a b : Distribution) : Distribution :=
  Distribution.combineWith (· * ·) a b

/-- `fn floor`: Rust `isize` division truncates toward zero (`Int.tdiv`). -/
def floorDist (toStr : Expression → String) (e : Expression)
    (a b : Distribution) : Except Error Distribution :=
  if (b.probability 0).num ≠ 0 then
    .error (.DivideByZero (toStr e))
  else
    .ok (Distribution.combineWith Int.tdiv a b)

/-- The predicate evaluated per pair inside `fn comparison`. -/
def ComparisonOp.holds : ComparisonOp → Int → Int → Bool
  | .Gt, a, b => a > b
  | .Ge, a, b => a ≥ b
  | .Eq, a, b => a == b
  | .Le, a, b => a ≤ b
  | .Lt, a, b => a < b

/-- The accumulation loop of `fn comparison` (before the collapse step). -/
def comparisonAccum (a : Distribution) (op : ComparisonOp) (b : Distribution) :
    Distribution :=
  Distribution.combineWith (fun v1 v2 => if op.holds v1 v2 then 1 else 0) a b

/-- `fn comparison`: accumulate boolean outcomes, then collapse an
always-false / always-true result to the corresponding point mass. -/
def comparison (a : Distribution) (op : ComparisonOp) (b : Distribution) :
    Distribution :=
  let d := comparisonAccum a op b
  if d.probability 0 = 1 then Distribution.modifier 0
  else if d.probability 1 = 1 then Distribution.modifier 1
  else d

/-- Rust `Iterator::sum for Distribution`: reduce with `+`, or `modifier(0)`
for an empty collection. -/
def sumDistList : List Distribution → Distribution
  | [] => Distribution.modifier 0
  | d :: rest => rest.foldl Distribution.add d

mutual

/-- `Expression::distribution_internal`: the recursive evaluator.  Rust's
`?` operator (return the first error) is written as explicit matches.
`toStr` stands for the external `Display` rendering used to tag errors. -/
def distributionInternal (toStr : Expression → String) :
    Expression → Except Error Distribution
  | .Modifier m => .ok (Distribution.modifier m)
  | .Die d => .ok (Distribution.die d)
  | .Negated e =>
    match distributionInternal toStr e with
    | .error err => .error err
    | .ok d => .ok d.neg
  | .Repeated count value ranker =>
    match distributionInternal toStr count with
    | .error err => .error err
    | .ok c =>
      match distributionInternal toStr value with
      | .error err => .error err
      | .ok v => repeatDist toStr (.Repeated count value ranker) c v ranker
  | .Product a b =>
    match distributionInternal toStr a with
    | .error err => .error err
    | .ok da =>
      match distributionInternal toStr b with
      | .error err => .error err
      | .ok db => .ok (product da db)
  | .Floor a b =>
    match distributionInternal toStr a with
    | .error err => .error err
    | .ok da =>
      match distributionInternal toStr b with
      | .error err => .error err
      | .ok db => floorDist toStr (.Floor a b) da db
  | .Sum es =>
    match distList toStr es with
    | .error err => .error err
    | .ok ds => .ok (sumDistList ds)
  | .Comparison a op b =>
    match distributionInternal toStr a with
    | .error err => .error err
    | .ok da =>
      match distributionInternal toStr b with
      | .error err => .error err
      | .ok db => .ok (comparison da op db)

/-- The `expressions.iter().map(...).collect::<Result<Vec<_>, _>>()` step of
the `Sum` arm: evaluate left to right, stopping at the first error. -/
def distList (toStr : Expression → String) :
    List Expression → Except Error (List Distribution)
  | [] => .ok []
  | e :: es =>
    match distributionInternal toStr e with
    | .error err => .error err
    | .ok d =>
      match distList toStr es with
      | .error err => .error err
      | .ok ds => .ok (d :: ds)

end

/-- `Expression::distribution`: evaluate, then `clean` the result once. -/
def distribution (toStr : Expression → String) (e : Expression) :
    Except Error Distribution :=
  (distributionInternal toStr e).map (fun v => v.clean)

/-- `Distribution::probability` with its one panic site made explicit:
`Ratio::new(occ, total)` panics when `total == 0`, which is only reachable
when the index check passes.  `none` models that panic. -/
def Distribution.probabilityChecked (d : Distribution) (value : Int) : Option ℚ :=
  let index := value - d.offset
  if 0 ≤ index ∧ index < (d.occurrence_by_value.length : Int) then
    if d.total = 0 then none
    else some ((d.occurrence_by_value.getD index.toNat 0 : ℚ) / (d.total : ℚ))
  else some 0

/-- `Neg for &Distribution` with its one panic site made explicit: the
`usize` subtraction `len - 1` underflows (debug panic) when the vector is
empty.  `none` models that panic. -/
def Distribution.negChecked (d : Distribution) : Option Distribution :=
  if d.occurrence_by_value.isEmpty then none else some d.neg

mutual

/-- Specification predicate (not source code): every `Die` node in the
expression has at least one face. -/
def allDicePositive : Expression → Bool
  | .Modifier _ => true
  | .Die d => decide (1 ≤ d)
  | .Negated e => allDicePositive e
  | .Repeated count value _ => allDicePositive count && allDicePositive value
  | .Product a b => allDicePositive a && allDicePositive b
  | .Floor a b => allDicePositive a && allDicePositive b
  | .Sum es => allDicePositiveList es
  | .Comparison a _ b => allDicePositive a && allDicePositive b

/-- `allDicePositive` over a list of subexpressions. -/
def allDicePositiveList : List Expression → Bool
  | [] => true
  | e :: es => allDicePositive e && allDicePositiveList es

end

/-! ### Lemmas about `addOccurrences` -/

namespace Distribution

theorem occAt_of_le (d : Distribution) (v : Int) (h : d.offset ≤ v) :
    occAt d v = d.occurrence_by_value.getD (v - d.offset).toNat 0 := by
  unfold occAt
  by_cases hlt : v - d.offset < (d.occurrence_by_value.length : Int)
  · simp [h, hlt, Int.sub_nonneg.mpr h]
  · have hlen : d.occurrence_by_value.length ≤ (v - d.offset).toNat := by omega
    have hcond : ¬ (0 ≤ v - d.offset ∧ v - d.offset < (d.occurrence_by_value.length : Int)) :=
      fun hc => hlt hc.2
    rw [if_neg hcond, List.getD_eq_default _ _ hlen]

theorem occAt_of_lt (d : Distribution) (v : Int) (h : v < d.offset) :
    occAt d v = 0 := by
  unfold occAt
  have : ¬ (0 ≤ v - d.offset) := by omega
  simp [this]

theorem sum_set_getD (l : List Nat) (i : Nat) (c : Nat) (h : i < l.length) :
    (l.set i (l.getD i 0 + c)).sum = l.sum + c := by
  induction l generalizing i with
  | nil => simp at h
  | cons x xs ih =>
    cases i with
    | zero => simp [List.getD_cons_zero]; omega
    | succ n =>
      simp only [List.set, List.getD_cons_succ, List.sum_cons]
      rw [ih n (by simpa using h)]
      omega

theorem getD_replicate_zero (k m : Nat) :
    (List.replicate k (0 : Nat)).getD m 0 = 0 := by
  rw [List.getD_eq_getElem?_getD, List.getElem?_replicate]
  split <;> simp

theorem occAt_mk_prepend (l : List Nat) (o w : Int) (h : w < o) (v : Int) :
    occAt ⟨List.replicate (o - w).toNat 0 ++ l, w⟩ v = occAt ⟨l, o⟩ v := by
  rcases lt_or_le v w with hv | hv
  · rw [occAt_of_lt _ _ hv, occAt_of_lt (⟨l, o⟩ : Distribution) _ (by show v < o; omega)]
  rcases lt_or_le v o with hvo | hvo
  · rw [occAt_of_le _ _ hv, occAt_of_lt (⟨l, o⟩ : Distribution) _ hvo]
    rw [List.getD_append _ _ _ _ (by simp; omega)]
    exact getD_replicate_zero _ _
  · rw [occAt_of_le _ _ hv, occAt_of_le (⟨l, o⟩ : Distribution) _ hvo]
    rw [List.getD_append_right _ _ _ _ (by simp; omega)]
    simp only [List.length_replicate]
    congr 1
    omega

theorem occAt_mk_append_zeros (l : List Nat) (o : Int) (k : Nat) (v : Int) :
    occAt ⟨l ++ List.replicate k 0, o⟩ v = occAt ⟨l, o⟩ v := by
  rcases lt_or_le v o with hv | hv
  · rw [occAt_of_lt _ _ hv, occAt_of_lt (⟨l, o⟩ : Distribution) _ hv]
  rw [occAt_of_le _ _ hv, occAt_of_le (⟨l, o⟩ : Distribution) _ hv]
  rcases lt_or_le (v - o).toNat l.length with hj | hj
  · exact List.getD_append _ _ _ _ hj
  · rw [List.getD_append_right _ _ _ _ hj, List.getD_eq_default _ _ hj,
      getD_replicate_zero]

theorem occAt_mk_set (l : List Nat) (o w : Int) (c : Nat) (ho : o ≤ w)
    (hlt : (w - o).toNat < l.length) (v : Int) :
    occAt ⟨l.set (w - o).toNat (l.getD (w - o).toNat 0 + c), o⟩ v
      = occAt ⟨l, o⟩ v + if w = v then c else 0 := by
  rcases lt_or_le v o with hv | hv
  · rw [occAt_of_lt _ _ hv, occAt_of_lt (⟨l, o⟩ : Distribution) _ hv]
    have : w ≠ v := by omega
    simp [this]
  rw [occAt_of_le _ _ hv, occAt_of_le (⟨l, o⟩ : Distribution) _ hv]
  simp only [List.getD_eq_getElem?_getD, List.getElem?_set]
  by_cases heq : (w - o).toNat = (v - o).toNat
  · have hvw : w = v := by omega
    have hlt' : (v - o).toNat < l.length := heq ▸ hlt
    simp [heq, hlt', hvw, List.getD_eq_getElem?_getD]
  · have hvw : ¬ (w = v) := by omega
    simp [heq, hvw]

theorem occAt_addOccurrences (d : Distribution) (w : Int) (c : Nat) (v : Int) :
    occAt (addOccurrences d w c) v = occAt d v + if w = v then c else 0 := by
  obtain ⟨l, o⟩ := d
  unfold addOccurrences
  by_cases h1 : w < o
  · simp only [h1, if_true, reduceIte]
    have hk : 1 ≤ (o - w).toNat := by omega
    have hlen : ¬ ((List.replicate (o - w).toNat 0 ++ l).length ≤ (w - w).toNat) := by
      simp; omega
    simp only [hlen, if_false, reduceIte]
    have h0 : (w - w).toNat = 0 := by omega
    calc occAt ⟨(List.replicate (o - w).toNat 0 ++ l).set (w - w).toNat
            ((List.replicate (o - w).toNat 0 ++ l).getD (w - w).toNat 0 + c), w⟩ v
        = occAt ⟨List.replicate (o - w).toNat 0 ++ l, w⟩ v
            + if w = v then c else 0 := by
          have := occAt_mk_set (List.replicate (o - w).toNat 0 ++ l) w w c
            le_rfl (by simp; omega) v
          simpa [h0] using this
      _ = occAt ⟨l, o⟩ v + if w = v then c else 0 := by
          rw [occAt_mk_prepend l o w h1 v]
  · simp only [h1, if_false, reduceIte]
    by_cases h2 : l.length ≤ (w - o).toNat
    · simp only [h2, if_true, reduceIte]
      have hlt : (w - o).toNat < (l ++ List.replicate ((w - o).toNat + 1 - l.length) 0).length := by
        simp; omega
      calc occAt ⟨(l ++ List.replicate ((w - o).toNat + 1 - l.length) 0).set (w - o).toNat
              ((l ++ List.replicate ((w - o).toNat + 1 - l.length) 0).getD (w - o).toNat 0 + c), o⟩ v
          = occAt ⟨l ++ List.replicate ((w - o).toNat + 1 - l.length) 0, o⟩ v
              + if w = v then c else 0 :=
            occAt_mk_set _ o w c (by omega) hlt v
        _ = occAt ⟨l, o⟩ v + if w = v then c else 0 := by
            rw [occAt_mk_append_zeros]
    · simp only [h2, if_false, reduceIte]
      exact occAt_mk_set l o w c (by omega) (by omega) v

theorem total_addOccurrences (d : Distribution) (w : Int) (c : Nat) :
    (addOccurrences d w c).total = d.total + c := by
  obtain ⟨l, o⟩ := d
  unfold addOccurrences total
  by_cases h1 : w < o
  · simp only [h1, if_true, reduceIte]
    have hlen : ¬ ((List.replicate (o - w).toNat 0 ++ l).length ≤ (w - w).toNat) := by
      simp; omega
    simp only [hlen, if_false, reduceIte]
    rw [sum_set_getD _ _ _ (by simp; omega)]
    simp
  · simp only [h1, if_false, reduceIte]
    by_cases h2 : l.length ≤ (w - o).toNat
    · simp only [h2, if_true, reduceIte]
      rw [sum_set_getD _ _ _ (by simp; omega)]
      simp
    · simp only [h2, if_false, reduceIte]
      rw [sum_set_getD _ _ _ (by omega)]

/-! ### Lemmas about the `Occurrences` iterator -/

theorem occAt_empty (v : Int) : occAt empty v = 0 := by
  rcases lt_or_le v (0 : Int) with h | h
  · exact occAt_of_lt empty v h
  · rw [occAt_of_le empty v h]
    exact List.getD_nil

theorem occAt_mk_cons (occ : Nat) (rest : List Nat) (o v : Int) :
    occAt ⟨occ :: rest, o⟩ v
      = if v = o then occ else occAt ⟨rest, o + 1⟩ v := by
  by_cases hv : v = o
  · subst hv
    rw [if_pos rfl, occAt_of_le (⟨occ :: rest, v⟩ : Distribution) _ (by show v ≤ v; omega)]
    simp
  · rw [if_neg hv]
    rcases lt_or_le v o with hlt | hle
    · rw [occAt_of_lt (⟨occ :: rest, o⟩ : Distribution) _ (by show v < o; omega),
        occAt_of_lt (⟨rest, o + 1⟩ : Distribution) _ (by show v < o + 1; omega)]
    · have hle1 : o + 1 ≤ v := by omega
      rw [occAt_of_le (⟨occ :: rest, o⟩ : Distribution) _ hle,
        occAt_of_le (⟨rest, o + 1⟩ : Distribution) _ hle1]
      show (occ :: rest).getD (v - o).toNat 0 = rest.getD (v - (o + 1)).toNat 0
      have hsucc : (v - o).toNat = (v - (o + 1)).toNat + 1 := by omega
      rw [hsucc, List.getD_cons_succ]

theorem occList_map_snd_sum (l : List Nat) (b : Int) :
    ((occList b l).map (·.2)).sum = l.sum := by
  induction l generalizing b with
  | nil => simp [occList]
  | cons occ rest ih =>
    unfold occList
    by_cases h : occ = 0
    · simp [h, ih]
    · simp [h, ih]

theorem occList_sum_if (l : List Nat) (b : Int) (t : Int) :
    ((occList b l).map (fun p => if p.1 = t then p.2 else 0)).sum
      = occAt ⟨l, b⟩ t := by
  induction l generalizing b with
  | nil =>
    simp only [occList, List.map_nil, List.sum_nil]
    rcases lt_or_le t b with h | h
    · rw [occAt_of_lt (⟨[], b⟩ : Distribution) _ (by show t < b; omega)]
    · rw [occAt_of_le (⟨[], b⟩ : Distribution) _ (by show b ≤ t; omega), List.getD_nil]
  | cons occ rest ih =>
    rw [occAt_mk_cons]
    unfold occList
    by_cases h : occ = 0
    · rw [if_pos h, ih]
      by_cases ht : t = b
      · rw [if_pos ht,
          occAt_of_lt (⟨rest, b + 1⟩ : Distribution) _ (by show t < b + 1; omega), h]
      · rw [if_neg ht]
    · rw [if_neg h]
      simp only [List.map_cons, List.sum_cons, ih]
      by_cases ht : t = b
      · rw [if_pos ht, if_pos (show b = t from ht.symm),
          occAt_of_lt (⟨rest, b + 1⟩ : Distribution) _ (by show t < b + 1; omega)]
        omega
      · rw [if_neg ht, if_neg (fun hbt => ht hbt.symm)]
        omega

theorem occList_map_mul_sum (l : List Nat) (b : Int) (F : Int → Nat) :
    ((occList b l).map (fun p => p.2 * F p.1)).sum
      = ∑ i ∈ Finset.range l.length, l.getD i 0 * F (b + i) := by
  induction l generalizing b with
  | nil => simp [occList]
  | cons occ rest ih =>
    rw [List.length_cons, Finset.sum_range_succ']
    have hstep : ∑ i ∈ Finset.range rest.length,
        (occ :: rest).getD (i + 1) 0 * F (b + ((i + 1 : Nat) : Int))
          = ∑ i ∈ Finset.range rest.length, rest.getD i 0 * F ((b + 1) + (i : Int)) := by
      refine Finset.sum_congr rfl (fun i _ => ?_)
      rw [List.getD_cons_succ]
      have harg : (b + ((i + 1 : Nat) : Int)) = (b + 1) + (i : Int) := by
        push_cast
        ring
      rw [harg]
    rw [hstep]
    unfold occList
    by_cases h : occ = 0
    · rw [if_pos h, ih]
      simp [h]
    · rw [if_neg h]
      simp only [List.map_cons, List.sum_cons, ih, List.getD_cons_zero]
      simp only [Nat.cast_zero, add_zero]
      omega

/-! ### Lemmas about accumulation folds and `combineWith` -/

theorem total_foldl_addOccurrences (l : List (Int × Nat)) (d : Distribution) :
    (l.foldl (fun r p => addOccurrences r p.1 p.2) d).total
      = d.total + (l.map (·.2)).sum := by
  induction l generalizing d with
  | nil => simp
  | cons p rest ih =>
    simp only [List.foldl_cons, List.map_cons, List.sum_cons, ih,
      total_addOccurrences]
    omega

theorem occAt_foldl_addOccurrences (l : List (Int × Nat)) (d : Distribution) (v : Int) :
    occAt (l.foldl (fun r p => addOccurrences r p.1 p.2) d) v
      = occAt d v + (l.map (fun p => if p.1 = v then p.2 else 0)).sum := by
  induction l generalizing d with
  | nil => simp
  | cons p rest ih =>
    simp only [List.foldl_cons, List.map_cons, List.sum_cons, ih,
      occAt_addOccurrences]
    omega

theorem combineWith_eq_foldl (g : Int → Int → Int) (a b : Distribution) :
    combineWith g a b
      = (a.occurrences.flatMap
          (fun pa => b.occurrences.map (fun pb => (g pa.1 pb.1, pa.2 * pb.2)))).foldl
          (fun r p => addOccurrences r p.1 p.2) empty := by
  unfold combineWith
  generalize a.occurrences = A
  generalize empty = init
  induction A generalizing init with
  | nil => simp
  | cons pa rest ih =>
    simp only [List.foldl_cons, List.flatMap_cons, List.foldl_append, ih,
      List.foldl_map]

theorem sum_map_snd_flatMap (A : List (Int × Nat)) (f : (Int × Nat) → List (Int × Nat)) :
    ((A.flatMap f).map (·.2)).sum = (A.map (fun pa => ((f pa).map (·.2)).sum)).sum := by
  induction A with
  | nil => simp
  | cons pa rest ih => simp [ih]

theorem total_combineWith (g : Int → Int → Int) (a b : Distribution) :
    (combineWith g a b).total = a.total * b.total := by
  rw [combineWith_eq_foldl, total_foldl_addOccurrences, sum_map_snd_flatMap]
  have hempty : empty.total = 0 := rfl
  rw [hempty, Nat.zero_add]
  have hinner : ∀ pa : Int × Nat,
      ((b.occurrences.map (fun pb => (g pa.1 pb.1, pa.2 * pb.2))).map (·.2)).sum
        = pa.2 * b.total := by
    intro pa
    rw [List.map_map]
    have h1 : ((·.2) ∘ fun pb : Int × Nat => (g pa.1 pb.1, pa.2 * pb.2))
        = fun pb : Int × Nat => pa.2 * pb.2 := rfl
    rw [h1, List.sum_map_mul_left b.occurrences (·.2) pa.2]
    have h2 : (b.occurrences.map (·.2)).sum = b.total := occList_map_snd_sum _ _
    rw [h2]
  rw [List.map_congr_left (fun pa _ => hinner pa),
    List.sum_map_mul_right a.occurrences (·.2) b.total]
  have h3 : (a.occurrences.map (·.2)).sum = a.total := occList_map_snd_sum _ _
  rw [h3]

/-! ### The convolution characterization of `add` -/

theorem occAt_offset_add (d : Distribution) (i : Nat) :
    occAt d (d.offset + i) = d.occurrence_by_value.getD i 0 := by
  rw [occAt_of_le _ _ (by omega)]
  congr 1
  omega

theorem occAt_support (d : Distribution) (w : Int) (h : occAt d w ≠ 0) :
    d.offset ≤ w ∧ w < d.offset + (d.occurrence_by_value.length : Int) := by
  rcases lt_or_le w d.offset with hw | hw
  · exact absurd (occAt_of_lt d w hw) h
  refine ⟨hw, ?_⟩
  by_contra hge
  push_neg at hge
  rw [occAt_of_le d w hw,
    List.getD_eq_default _ _ (by omega : d.occurrence_by_value.length ≤ (w - d.offset).toNat)] at h
  exact h rfl

theorem sum_map_flatMap_general {α : Type _} {β : Type _} (A : List α)
    (f : α → List β) (h : β → Nat) :
    ((A.flatMap f).map h).sum = (A.map (fun pa => ((f pa).map h).sum)).sum := by
  induction A with
  | nil => simp
  | cons pa rest ih => simp [ih]

theorem occAt_add_eq_list (a b : Distribution) (v : Int) :
    occAt (add a b) v
      = (a.occurrences.map (fun pa => pa.2 * occAt b (v - pa.1))).sum := by
  rw [add, combineWith_eq_foldl, occAt_foldl_addOccurrences, occAt_empty,
    Nat.zero_add, sum_map_flatMap_general]
  refine congrArg List.sum (List.map_congr_left (fun pa _ => ?_))
  rw [List.map_map]
  have hcomp : ((fun p : Int × Nat => if p.1 = v then p.2 else 0)
        ∘ fun pb : Int × Nat => (pa.1 + pb.1, pa.2 * pb.2))
      = fun pb : Int × Nat => if pa.1 + pb.1 = v then pa.2 * pb.2 else 0 := rfl
  rw [hcomp]
  have hfun : (fun pb : Int × Nat => if pa.1 + pb.1 = v then pa.2 * pb.2 else 0)
      = fun pb : Int × Nat => pa.2 * (if pb.1 = v - pa.1 then pb.2 else 0) := by
    funext pb
    by_cases hpb : pb.1 = v - pa.1
    · rw [if_pos hpb, if_pos (by omega)]
    · rw [if_neg hpb, if_neg (by omega), Nat.mul_zero]
  rw [hfun, List.sum_map_mul_left b.occurrences
    (fun pb => if pb.1 = v - pa.1 then pb.2 else 0) pa.2]
  have h2 : (b.occurrences.map (fun pb => if pb.1 = v - pa.1 then pb.2 else 0)).sum
      = occAt b (v - pa.1) := occList_sum_if _ _ _
  rw [h2]

theorem occAt_add_eq_range (a b : Distribution) (v : Int) :
    occAt (add a b) v
      = ∑ i ∈ Finset.range a.occurrence_by_value.length,
          a.occurrence_by_value.getD i 0 * occAt b (v - (a.offset + i)) := by
  rw [occAt_add_eq_list]
  exact occList_map_mul_sum a.occurrence_by_value a.offset (fun w => occAt b (v - w))

theorem sum_occAt_mul (a : Distribution) (F : Int → Nat) (S : Finset ℤ)
    (hS : ∀ w, occAt a w ≠ 0 → w ∈ S) :
    ∑ w ∈ S, occAt a w * F w
      = ∑ i ∈ Finset.range a.occurrence_by_value.length,
          a.occurrence_by_value.getD i 0 * F (a.offset + i) := by
  classical
  set T : Finset ℤ :=
    (Finset.range a.occurrence_by_value.length).image (fun i : ℕ => a.offset + (i : ℤ))
    with hTdef
  have hinj : ∀ x ∈ Finset.range a.occurrence_by_value.length,
      ∀ y ∈ Finset.range a.occurrence_by_value.length,
      a.offset + (x : ℤ) = a.offset + (y : ℤ) → x = y := by
    intro x _ y _ hxy
    omega
  have hT : ∑ w ∈ T, occAt a w * F w
      = ∑ i ∈ Finset.range a.occurrence_by_value.length,
          occAt a (a.offset + i) * F (a.offset + i) := Finset.sum_image hinj
  have hsuppT : ∀ w, occAt a w ≠ 0 → w ∈ T := by
    intro w hw
    obtain ⟨h1, h2⟩ := occAt_support a w hw
    rw [hTdef, Finset.mem_image]
    exact ⟨(w - a.offset).toNat, Finset.mem_range.mpr (by omega), by omega⟩
  have hzero : ∀ (U : Finset ℤ), ∀ x ∈ U, occAt a x * F x ≠ 0 → occAt a x ≠ 0 := by
    intro U x _ hfx h0
    exact hfx (by rw [h0, Nat.zero_mul])
  have hSfilter : ∑ w ∈ S.filter (fun w => occAt a w ≠ 0), occAt a w * F w
      = ∑ w ∈ S, occAt a w * F w := Finset.sum_filter_of_ne (hzero S)
  have hTfilter : ∑ w ∈ T.filter (fun w => occAt a w ≠ 0), occAt a w * F w
      = ∑ w ∈ T, occAt a w * F w := Finset.sum_filter_of_ne (hzero T)
  have hfilters : S.filter (fun w => occAt a w ≠ 0)
      = T.filter (fun w => occAt a w ≠ 0) := by
    ext w
    simp only [Finset.mem_filter]
    constructor
    · rintro ⟨_, hp⟩
      exact ⟨hsuppT w hp, hp⟩
    · rintro ⟨_, hp⟩
      exact ⟨hS w hp, hp⟩
  rw [← hSfilter, hfilters, hTfilter, hT]
  refine Finset.sum_congr rfl (fun i _ => ?_)
  rw [occAt_offset_add]

/-! ### `probability`, `die`, `neg` -/

theorem probability_eq_occAt (d : Distribution) (v : Int) :
    d.probability v = (occAt d v : ℚ) / (d.total : ℚ) := by
  simp only [probability, occAt]
  split
  · rfl
  · simp

theorem total_pos_nonempty (d : Distribution) (h : 0 < d.total) :
    d.occurrence_by_value ≠ [] := by
  intro hnil
  rw [total, hnil] at h
  simp at h

theorem total_die (n : Nat) : (die n).total = n := by
  simp [die, total, List.sum_replicate]

theorem total_modifier (v : Int) : (modifier v).total = 1 := rfl

theorem total_neg (d : Distribution) : d.neg.total = d.total := by
  unfold total neg
  exact List.sum_reverse _

theorem occAt_neg (d : Distribution) (h : d.occurrence_by_value ≠ []) (v : Int) :
    occAt d.neg v = occAt d (-v) := by
  obtain ⟨l, o⟩ := d
  have hn : 1 ≤ l.length := List.length_pos.mpr h
  show occAt ⟨l.reverse, -((l.length : Int) - 1 + o)⟩ v = occAt ⟨l, o⟩ (-v)
  rcases lt_or_le (-v) o with h1 | h1
  · rw [occAt_of_lt (⟨l, o⟩ : Distribution) _ (by show -v < o; omega)]
    rw [occAt_of_le (⟨l.reverse, -((l.length : Int) - 1 + o)⟩ : Distribution) _
      (by show -((l.length : Int) - 1 + o) ≤ v; omega)]
    exact List.getD_eq_default _ _ (by simp only [List.length_reverse]; omega)
  rcases lt_or_le (-v) (o + (l.length : Int)) with h2 | h2
  · rw [occAt_of_le (⟨l, o⟩ : Distribution) _ (by show o ≤ -v; omega)]
    rw [occAt_of_le (⟨l.reverse, -((l.length : Int) - 1 + o)⟩ : Distribution) _
      (by show -((l.length : Int) - 1 + o) ≤ v; omega)]
    show l.reverse.getD (v - -((l.length : Int) - 1 + o)).toNat 0
      = l.getD (-v - o).toNat 0
    have hb : (v - -((l.length : Int) - 1 + o)).toNat < l.length := by omega
    rw [List.getD_eq_getElem?_getD, List.getD_eq_getElem?_getD,
      List.getElem?_reverse hb]
    congr 2
    omega
  · rw [occAt_of_le (⟨l, o⟩ : Distribution) _ (by show o ≤ -v; omega),
      List.getD_eq_default _ _ (by show l.length ≤ (-v - o).toNat; omega),
      occAt_of_lt (⟨l.reverse, -((l.length : Int) - 1 + o)⟩ : Distribution) _
        (by show v < -((l.length : Int) - 1 + o); omega)]

theorem probability_neg (d : Distribution) (h : d.occurrence_by_value ≠ [])
    (v : Int) : d.neg.probability v = d.probability (-v) := by
  rw [probability_eq_occAt, probability_eq_occAt, occAt_neg d h v, total_neg]

theorem neg_offset (d : Distribution) : d.neg.offset = -d.max := by
  show -((d.occurrence_by_value.length : Int) - 1 + d.offset)
    = -(d.offset + (d.occurrence_by_value.length : Int) - 1)
  ring

theorem neg_neg_eq (d : Distribution) : d.neg.neg = d := by
  obtain ⟨l, o⟩ := d
  show (⟨l.reverse.reverse,
    -((l.reverse.length : Int) - 1 + -((l.length : Int) - 1 + o))⟩ : Distribution)
      = ⟨l, o⟩
  rw [List.reverse_reverse, List.length_reverse]
  have : -((l.length : Int) - 1 + -((l.length : Int) - 1 + o)) = o := by ring
  rw [this]

/-! ### Lemmas about `clean` -/

theorem drop_length_takeWhile (p : Nat → Bool) (l : List Nat) :
    l.drop (l.takeWhile p).length = l.dropWhile p := by
  induction l with
  | nil => rfl
  | cons x xs ih =>
    rw [List.takeWhile_cons, List.dropWhile_cons]
    by_cases hp : p x
    · simp only [hp, if_true, reduceIte, List.length_cons, List.drop_succ_cons]
      exact ih
    · simp [hp]

theorem dropWhile_head_not (p : Nat → Bool) (l : List Nat) (a : Nat)
    (h : (l.dropWhile p).head? = some a) : p a = false := by
  induction l with
  | nil => simp [List.dropWhile] at h
  | cons x xs ih =>
    rw [List.dropWhile_cons] at h
    by_cases hp : p x
    · rw [if_pos hp] at h
      exact ih h
    · rw [if_neg hp] at h
      have hxa : x = a := by simpa using h
      subst hxa
      exact Bool.eq_false_iff.mpr hp

theorem clean_list_eq (d : Distribution) :
    (clean d).occurrence_by_value
      = ((d.occurrence_by_value.dropWhile (· = 0)).reverse.dropWhile
          (· = 0)).reverse := by
  obtain ⟨l, o⟩ := d
  show ((l.drop (l.takeWhile (· = 0)).length).take
      ((l.drop (l.takeWhile (· = 0)).length).length
        - ((l.drop (l.takeWhile (· = 0)).length).reverse.takeWhile (· = 0)).length))
    = ((l.dropWhile (· = 0)).reverse.dropWhile (· = 0)).reverse
  rw [drop_length_takeWhile]
  have hsplitrev : (l.dropWhile (· = 0)).reverse
      = (l.dropWhile (· = 0)).reverse.takeWhile (· = 0)
        ++ (l.dropWhile (· = 0)).reverse.dropWhile (· = 0) :=
    (List.takeWhile_append_dropWhile _ _).symm
  have hsplit : l.dropWhile (· = 0)
      = ((l.dropWhile (· = 0)).reverse.dropWhile (· = 0)).reverse
        ++ ((l.dropWhile (· = 0)).reverse.takeWhile (· = 0)).reverse := by
    calc l.dropWhile (· = 0) = (l.dropWhile (· = 0)).reverse.reverse :=
          (List.reverse_reverse _).symm
      _ = ((l.dropWhile (· = 0)).reverse.takeWhile (· = 0)
            ++ (l.dropWhile (· = 0)).reverse.dropWhile (· = 0)).reverse :=
          congrArg List.reverse hsplitrev
      _ = ((l.dropWhile (· = 0)).reverse.dropWhile (· = 0)).reverse
            ++ ((l.dropWhile (· = 0)).reverse.takeWhile (· = 0)).reverse :=
          List.reverse_append _ _
  have hlen : (((l.dropWhile (· = 0)).reverse.dropWhile (· = 0)).reverse).length
      = (l.dropWhile (· = 0)).length
        - ((l.dropWhile (· = 0)).reverse.takeWhile (· = 0)).length := by
    have hl := congrArg List.length hsplit
    simp only [List.length_append, List.length_reverse] at hl
    rw [List.length_reverse]
    omega
  calc (l.dropWhile (· = 0)).take
        ((l.dropWhile (· = 0)).length
          - ((l.dropWhile (· = 0)).reverse.takeWhile (· = 0)).length)
      = (((l.dropWhile (· = 0)).reverse.dropWhile (· = 0)).reverse
          ++ ((l.dropWhile (· = 0)).reverse.takeWhile (· = 0)).reverse).take
          ((l.dropWhile (· = 0)).length
            - ((l.dropWhile (· = 0)).reverse.takeWhile (· = 0)).length) :=
        congrArg (List.take _) hsplit
    _ = ((l.dropWhile (· = 0)).reverse.dropWhile (· = 0)).reverse :=
        List.take_left' hlen

theorem clean_offset (d : Distribution) :
    (clean d).offset = d.offset + (d.occurrence_by_value.takeWhile (· = 0)).length :=
  rfl

theorem clean_head_ne (d : Distribution) :
    (clean d).occurrence_by_value.head? ≠ some 0 := by
  rw [clean_list_eq, List.head?_reverse]
  intro hcontra
  have h2 : (d.occurrence_by_value.dropWhile (· = 0)).reverse.getLast? = some 0 := by
    rw [← List.takeWhile_append_dropWhile (· = 0)
      (d.occurrence_by_value.dropWhile (· = 0)).reverse]
    rw [List.getLast?_append, hcontra]
    rfl
  have h3 : (d.occurrence_by_value.dropWhile (· = 0)).head? = some 0 := by
    rw [← List.getLast?_reverse]
    exact h2
  have := dropWhile_head_not (· = 0) d.occurrence_by_value 0 h3
  simp at this

theorem clean_last_ne (d : Distribution) :
    (clean d).occurrence_by_value.getLast? ≠ some 0 := by
  rw [clean_list_eq, List.getLast?_reverse]
  intro hcontra
  have := dropWhile_head_not (· = 0)
    (d.occurrence_by_value.dropWhile (· = 0)).reverse 0 hcontra
  simp at this

theorem sum_takeWhile_zero (l : List Nat) : (l.takeWhile (· = 0)).sum = 0 :=
  List.sum_eq_zero (fun _ hx => by simpa using List.mem_takeWhile_imp hx)

theorem sum_dropWhile_zero (l : List Nat) : (l.dropWhile (· = 0)).sum = l.sum := by
  conv_rhs => rw [← List.takeWhile_append_dropWhile (· = 0) l]
  rw [List.sum_append, sum_takeWhile_zero, Nat.zero_add]

theorem clean_total (d : Distribution) : (clean d).total = d.total := by
  unfold total
  rw [clean_list_eq, List.sum_reverse, sum_dropWhile_zero, List.sum_reverse,
    sum_dropWhile_zero]

/-! ### Uniqueness of a probability-1 value -/

theorem getD_le_sum (l : List Nat) (i : Nat) : l.getD i 0 ≤ l.sum := by
  induction l generalizing i with
  | nil => simp [List.getD_nil]
  | cons x xs ih =>
    cases i with
    | zero =>
      rw [List.getD_cons_zero, List.sum_cons]
      omega
    | succ n =>
      rw [List.getD_cons_succ, List.sum_cons]
      have := ih n
      omega

theorem two_getD_le_sum (l : List Nat) (i j : Nat) (hij : i ≠ j) :
    l.getD i 0 + l.getD j 0 ≤ l.sum := by
  induction l generalizing i j with
  | nil => simp [List.getD_nil]
  | cons x xs ih =>
    match i, j with
    | 0, 0 => exact absurd rfl hij
    | 0, j + 1 =>
      rw [List.getD_cons_zero, List.getD_cons_succ, List.sum_cons]
      have := getD_le_sum xs j
      omega
    | i + 1, 0 =>
      rw [List.getD_cons_succ, List.getD_cons_zero, List.sum_cons]
      have := getD_le_sum xs i
      omega
    | i + 1, j + 1 =>
      rw [List.getD_cons_succ, List.getD_cons_succ, List.sum_cons]
      have := ih i j (by omega)
      omega

theorem probability_one_unique (d : Distribution) (v w : Int)
    (hv : d.probability v = 1) (hw : d.probability w = 1) : v = w := by
  by_contra hne
  rw [probability_eq_occAt] at hv hw
  have ht : d.total ≠ 0 := by
    intro h0
    rw [h0] at hv
    simp at hv
  have htq : (d.total : ℚ) ≠ 0 := Nat.cast_ne_zero.mpr ht
  rw [div_eq_one_iff_eq htq] at hv hw
  have hv' : occAt d v = d.total := Nat.cast_injective hv
  have hw' : occAt d w = d.total := Nat.cast_injective hw
  have hvpos : occAt d v ≠ 0 := by rw [hv']; exact ht
  have hwpos : occAt d w ≠ 0 := by rw [hw']; exact ht
  obtain ⟨hv1, _⟩ := occAt_support d v hvpos
  obtain ⟨hw1, _⟩ := occAt_support d w hwpos
  have hij : (v - d.offset).toNat ≠ (w - d.offset).toNat := by omega
  have h2 : occAt d v + occAt d w ≤ d.total := by
    rw [occAt_of_le _ _ hv1, occAt_of_le _ _ hw1]
    exact two_getD_le_sum _ _ _ hij
  omega

/-! ### Generic accumulation totals (for `repeat`) -/

theorem total_foldl_addOcc_fn {α : Type _} (L : List α) (val : α → Int)
    (occ : α → Nat) (r : Distribution) :
    (L.foldl (fun d x => addOccurrences d (val x) (occ x)) r).total
      = r.total + (L.map occ).sum := by
  induction L generalizing r with
  | nil => simp
  | cons x rest ih =>
    simp only [List.foldl_cons, List.map_cons, List.sum_cons, ih,
      total_addOccurrences]
    omega

theorem occList_snd_ne_zero (l : List Nat) (b : Int) (p : Int × Nat)
    (hp : p ∈ occList b l) : p.2 ≠ 0 := by
  induction l generalizing b with
  | nil => simp [occList] at hp
  | cons occ rest ih =>
    unfold occList at hp
    by_cases h : occ = 0
    · rw [if_pos h] at hp
      exact ih (b + 1) hp
    · rw [if_neg h] at hp
      rcases List.mem_cons.mp hp with hp1 | hp2
      · rw [hp1]
        exact h
      · exact ih (b + 1) hp2

theorem occList_ne_nil_of_sum_pos (l : List Nat) (b : Int) (h : 0 < l.sum) :
    occList b l ≠ [] := by
  intro hnil
  have := occList_map_snd_sum l b
  rw [hnil] at this
  simp at this
  omega

end Distribution

/-! ### `multiCartesian` weights -/

theorem multiCartesian_prod_sum (ls : List (List (Int × Nat))) :
    ((multiCartesian ls).map (fun c => (c.map (·.2)).prod)).sum
      = (ls.map (fun l => (l.map (·.2)).sum)).prod := by
  induction ls with
  | nil => simp [multiCartesian]
  | cons l ls ih =>
    unfold multiCartesian
    rw [Distribution.sum_map_flatMap_general]
    have hinner : ∀ x : Int × Nat,
        (((multiCartesian ls).map (x :: ·)).map (fun c => (c.map (·.2)).prod)).sum
          = x.2 * ((multiCartesian ls).map (fun c => (c.map (·.2)).prod)).sum := by
      intro x
      rw [List.map_map]
      have hcomp : ((fun c : List (Int × Nat) => (c.map (·.2)).prod) ∘ (x :: ·))
          = fun c : List (Int × Nat) => x.2 * (c.map (·.2)).prod := by
        funext c
        simp [List.prod_cons]
      rw [hcomp, List.sum_map_mul_left]
    rw [List.map_congr_left (fun x _ => hinner x),
      List.sum_map_mul_right l (·.2)
        ((multiCartesian ls).map (fun c => (c.map (·.2)).prod)).sum,
      ih, List.map_cons, List.prod_cons]

/-! ### `repeat` lemmas -/

theorem repeatDist_negative (toStr : Expression → String) (e : Expression)
    (count value : Distribution) (ranker : Ranker) (h : count.min < 0) :
    repeatDist toStr e count value ranker
      = .error (.NegativeCount (toStr e)) := by
  unfold repeatDist
  rw [if_pos h]

theorem repeatDist_keepTooFew (toStr : Expression → String) (e : Expression)
    (count value : Distribution) (ranker : Ranker) (h1 : ¬ count.min < 0)
    (h2 : count.min.toNat < ranker.count) :
    repeatDist toStr e count value ranker
      = .error (.KeepTooFew (toStr e)) := by
  unfold repeatDist
  rw [if_neg h1, if_pos h2]

theorem repeatDist_isOk (toStr : Expression → String) (e : Expression)
    (count value : Distribution) (ranker : Ranker) (h1 : ¬ count.min < 0)
    (h2 : ¬ count.min.toNat < ranker.count) :
    ∃ d, repeatDist toStr e count value ranker = .ok d :=
  ⟨_, by unfold repeatDist; rw [if_neg h1, if_neg h2]⟩

theorem total_repeat_outer (value : Distribution) (ranker : Ranker)
    (L : List (Int × Nat)) (r : Distribution) :
    (L.foldl
        (fun result p =>
          (multiCartesian (List.replicate p.1.toNat value.occurrences)).foldl
            (fun result valueSet =>
              Distribution.addOccurrences result
                (rankerFilter ranker (valueSet.map (·.1)) ranker.count).sum
                ((valueSet.map (·.2)).prod * p.2))
            result)
        r).total
      = r.total + (L.map (fun p => value.total ^ p.1.toNat * p.2)).sum := by
  induction L generalizing r with
  | nil => simp
  | cons p rest ih =>
    rw [List.foldl_cons, ih, List.map_cons, List.sum_cons]
    have hinner := Distribution.total_foldl_addOcc_fn
      (multiCartesian (List.replicate p.1.toNat value.occurrences))
      (fun valueSet => (rankerFilter ranker (valueSet.map (·.1)) ranker.count).sum)
      (fun valueSet => (valueSet.map (·.2)).prod * p.2) r
    rw [hinner]
    have hc : ((multiCartesian (List.replicate p.1.toNat value.occurrences)).map
        (fun c => (c.map (·.2)).prod * p.2)).sum
        = value.total ^ p.1.toNat * p.2 := by
      rw [List.sum_map_mul_right
        (multiCartesian (List.replicate p.1.toNat value.occurrences))
        (fun c => (c.map (·.2)).prod) p.2]
      rw [multiCartesian_prod_sum, List.map_replicate, List.prod_replicate]
      have hv : (value.occurrences.map (·.2)).sum = value.total :=
        Distribution.occList_map_snd_sum _ _
      rw [hv]
    rw [hc]
    omega

theorem repeatDist_total (toStr : Expression → String) (e : Expression)
    (count value : Distribution) (ranker : Ranker) (d : Distribution)
    (hok : repeatDist toStr e count value ranker = .ok d) :
    d.total = (count.occurrences.map
      (fun p => value.total ^ p.1.toNat * p.2)).sum := by
  unfold repeatDist at hok
  by_cases h1 : count.min < 0
  · rw [if_pos h1] at hok
    exact absurd hok (by simp)
  rw [if_neg h1] at hok
  by_cases h2 : count.min.toNat < ranker.count
  · rw [if_pos h2] at hok
    exact absurd hok (by simp)
  rw [if_neg h2] at hok
  injection hok with hd
  rw [← hd]
  show (count.occurrences.foldl
      (fun result p =>
        (multiCartesian (List.replicate p.1.toNat value.occurrences)).foldl
          (fun result valueSet =>
            Distribution.addOccurrences result
              (rankerFilter ranker (valueSet.map (·.1)) ranker.count).sum
              ((valueSet.map (·.2)).prod * p.2))
          result)
      Distribution.empty).total = _
  rw [total_repeat_outer value ranker count.occurrences Distribution.empty]
  simp [Distribution.total, Distribution.empty]

theorem repeatDist_total_pos (toStr : Expression → String) (e : Expression)
    (count value : Distribution) (ranker : Ranker)
    (hc : 0 < count.total) (hv : 0 < value.total) (d : Distribution)
    (hok : repeatDist toStr e count value ranker = .ok d) : 0 < d.total := by
  rw [repeatDist_total toStr e count value ranker d hok]
  have hne : count.occurrences ≠ [] :=
    Distribution.occList_ne_nil_of_sum_pos count.occurrence_by_value count.offset hc
  obtain ⟨p, hp⟩ := List.exists_mem_of_ne_nil _ hne
  by_contra h0
  push_neg at h0
  have hz : ∀ x ∈ (count.occurrences.map
      (fun p => value.total ^ p.1.toNat * p.2)), x = 0 := by
    intro x hx
    have := Nat.le_zero.mp h0
    exact List.sum_eq_zero_iff.mp this x hx
  have hmem : value.total ^ p.1.toNat * p.2
      ∈ (count.occurrences.map (fun p => value.total ^ p.1.toNat * p.2)) :=
    List.mem_map_of_mem _ hp
  have hzero := hz _ hmem
  have hpow : 0 < value.total ^ p.1.toNat := Nat.pos_pow_of_pos _ hv
  have hp2 := Distribution.occList_snd_ne_zero count.occurrence_by_value count.offset p hp
  rcases Nat.mul_eq_zero.mp hzero with hl | hr
  · omega
  · exact hp2 hr

/-! ### `comparison` lemmas -/

theorem comparison_eq_ite (a : Distribution) (op : ComparisonOp) (b : Distribution) :
    comparison a op b
      = if (comparisonAccum a op b).probability 0 = 1 then Distribution.modifier 0
        else if (comparisonAccum a op b).probability 1 = 1 then Distribution.modifier 1
        else comparisonAccum a op b := rfl

theorem total_comparisonAccum (a : Distribution) (op : ComparisonOp)
    (b : Distribution) : (comparisonAccum a op b).total = a.total * b.total :=
  Distribution.total_combineWith _ a b

theorem comparison_total_pos (a : Distribution) (op : ComparisonOp)
    (b : Distribution) (ha : 0 < a.total) (hb : 0 < b.total) :
    0 < (comparison a op b).total := by
  rw [comparison_eq_ite]
  by_cases h0 : (comparisonAccum a op b).probability 0 = 1
  · rw [if_pos h0]
    exact Nat.one_pos
  rw [if_neg h0]
  by_cases h1 : (comparisonAccum a op b).probability 1 = 1
  · rw [if_pos h1]
    exact Nat.one_pos
  rw [if_neg h1, total_comparisonAccum]
  exact Nat.mul_pos ha hb

/-! ### Totals through the evaluator -/

theorem total_add_mul (a b : Distribution) :
    (Distribution.add a b).total = a.total * b.total :=
  Distribution.total_combineWith _ a b

theorem total_product_mul (a b : Distribution) :
    (product a b).total = a.total * b.total :=
  Distribution.total_combineWith _ a b

theorem foldl_add_total_pos (rest : List Distribution) (d : Distribution)
    (hd : 0 < d.total) (h : ∀ x ∈ rest, 0 < x.total) :
    0 < (rest.foldl Distribution.add d).total := by
  induction rest generalizing d with
  | nil => exact hd
  | cons b rest ih =>
    rw [List.foldl_cons]
    refine ih (Distribution.add d b) ?_ (fun x hx => h x (List.mem_cons_of_mem _ hx))
    rw [total_add_mul]
    exact Nat.mul_pos hd (h b (List.mem_cons_self _ _))

theorem sumDistList_total_pos (ds : List Distribution)
    (h : ∀ x ∈ ds, 0 < x.total) : 0 < (sumDistList ds).total := by
  cases ds with
  | nil => exact Nat.one_pos
  | cons d rest =>
    exact foldl_add_total_pos rest d (h d (List.mem_cons_self _ _))
      (fun x hx => h x (List.mem_cons_of_mem _ hx))

theorem allDicePositiveList_mem (es : List Expression)
    (h : allDicePositiveList es = true) : ∀ e ∈ es, allDicePositive e = true := by
  induction es with
  | nil => intro e he; simp at he
  | cons e' rest ih =>
    intro e he
    unfold allDicePositiveList at h
    rw [Bool.and_eq_true] at h
    obtain ⟨h1, h2⟩ := h
    rcases List.mem_cons.mp he with he1 | he2
    · rw [he1]; exact h1
    · exact ih h2 e he2

theorem internalTotalPos :
    ∀ (N : Nat) (toStr : Expression → String) (e : Expression),
      sizeOf e ≤ N → allDicePositive e = true →
      ∀ d, distributionInternal toStr e = .ok d → 0 < d.total := by
  intro N
  induction N using Nat.strong_induction_on with
  | _ N ih =>
    intro toStr e hsize hdice d hok
    cases e with
    | Modifier m =>
      simp only [distributionInternal] at hok
      injection hok with hd
      rw [← hd]
      exact Nat.one_pos
    | Die n =>
      simp only [distributionInternal] at hok
      injection hok with hd
      rw [← hd, Distribution.total_die]
      simp only [allDicePositive] at hdice
      exact of_decide_eq_true hdice
    | Negated e1 =>
      simp only [distributionInternal] at hok
      cases heq : distributionInternal toStr e1 with
      | error err => rw [heq] at hok; exact absurd hok (by simp)
      | ok d1 =>
        rw [heq] at hok
        simp only at hok
        injection hok with hd
        rw [← hd, Distribution.total_neg]
        have hs : sizeOf e1 < N := by
          have hspec : sizeOf (Expression.Negated e1) = 1 + sizeOf e1 := by
            simp
          omega
        simp only [allDicePositive] at hdice
        exact ih (sizeOf e1) hs toStr e1 le_rfl hdice d1 heq
    | Repeated count value ranker =>
      simp only [distributionInternal] at hok
      simp only [allDicePositive, Bool.and_eq_true] at hdice
      have hspec : sizeOf (Expression.Repeated count value ranker)
          = 1 + sizeOf count + sizeOf value + sizeOf ranker := by
        simp
      cases h1 : distributionInternal toStr count with
      | error err => rw [h1] at hok; exact absurd hok (by simp)
      | ok c =>
        rw [h1] at hok
        cases h2 : distributionInternal toStr value with
        | error err => rw [h2] at hok; exact absurd hok (by simp)
        | ok v =>
          rw [h2] at hok
          simp only at hok
          have hc := ih (sizeOf count) (by omega) toStr count le_rfl hdice.1 c h1
          have hv := ih (sizeOf value) (by omega) toStr value le_rfl hdice.2 v h2
          exact repeatDist_total_pos toStr _ c v ranker hc hv d hok
    | Product a b =>
      simp only [distributionInternal] at hok
      simp only [allDicePositive, Bool.and_eq_true] at hdice
      have hspec : sizeOf (Expression.Product a b)
          = 1 + sizeOf a + sizeOf b := by
        simp
      cases h1 : distributionInternal toStr a with
      | error err => rw [h1] at hok; exact absurd hok (by simp)
      | ok da =>
        rw [h1] at hok
        cases h2 : distributionInternal toStr b with
        | error err => rw [h2] at hok; exact absurd hok (by simp)
        | ok db =>
          rw [h2] at hok
          simp only at hok
          injection hok with hd
          rw [← hd, total_product_mul]
          have ha := ih (sizeOf a) (by omega) toStr a le_rfl hdice.1 da h1
          have hb := ih (sizeOf b) (by omega) toStr b le_rfl hdice.2 db h2
          exact Nat.mul_pos ha hb
    | Floor a b =>
      simp only [distributionInternal] at hok
      simp only [allDicePositive, Bool.and_eq_true] at hdice
      have hspec : sizeOf (Expression.Floor a b) = 1 + sizeOf a + sizeOf b := by
        simp
      cases h1 : distributionInternal toStr a with
      | error err => rw [h1] at hok; exact absurd hok (by simp)
      | ok da =>
        rw [h1] at hok
        cases h2 : distributionInternal toStr b with
        | error err => rw [h2] at hok; exact absurd hok (by simp)
        | ok db =>
          rw [h2] at hok
          simp only at hok
          unfold floorDist at hok
          by_cases hz : (db.probability 0).num ≠ 0
          · rw [if_pos hz] at hok
            exact absurd hok (by simp)
          · rw [if_neg hz] at hok
            injection hok with hd
            rw [← hd, Distribution.total_combineWith]
            have ha := ih (sizeOf a) (by omega) toStr a le_rfl hdice.1 da h1
            have hb := ih (sizeOf b) (by omega) toStr b le_rfl hdice.2 db h2
            exact Nat.mul_pos ha hb
    | Sum es =>
      simp only [distributionInternal] at hok
      cases heq : distList toStr es with
      | error err => rw [heq] at hok; exact absurd hok (by simp)
      | ok ds =>
        rw [heq] at hok
        simp only at hok
        injection hok with hd
        rw [← hd]
        refine sumDistList_total_pos ds ?_
        simp only [allDicePositive] at hdice
        have hmem := allDicePositiveList_mem es hdice
        have hsz : ∀ e' ∈ es, sizeOf e' < N := by
          intro e' he'
          have hm := List.sizeOf_lt_of_mem he'
          have hspec : sizeOf (Expression.Sum es) = 1 + sizeOf es := by
            simp
          omega
        have haux : ∀ (es2 : List Expression),
            (∀ e' ∈ es2, sizeOf e' < N) →
            (∀ e' ∈ es2, allDicePositive e' = true) →
            ∀ (ds2 : List Distribution), distList toStr es2 = .ok ds2 →
            ∀ x ∈ ds2, 0 < x.total := by
          intro es2
          induction es2 with
          | nil =>
            intro _ _ ds2 hds x hx
            simp only [distList] at hds
            injection hds with hds2
            rw [← hds2] at hx
            simp at hx
          | cons e' rest ihl =>
            intro hsz2 hdc2 ds2 hds x hx
            simp only [distList] at hds
            cases h1 : distributionInternal toStr e' with
            | error err => rw [h1] at hds; exact absurd hds (by simp)
            | ok d1 =>
              rw [h1] at hds
              cases h2 : distList toStr rest with
              | error err => rw [h2] at hds; exact absurd hds (by simp)
              | ok ds1 =>
                rw [h2] at hds
                simp only at hds
                injection hds with hds2
                rw [← hds2] at hx
                rcases List.mem_cons.mp hx with hx1 | hx2
                · rw [hx1]
                  exact ih (sizeOf e') (hsz2 e' (List.mem_cons_self _ _)) toStr e'
                    le_rfl (hdc2 e' (List.mem_cons_self _ _)) d1 h1
                · exact ihl (fun z hz => hsz2 z (List.mem_cons_of_mem _ hz))
                    (fun z hz => hdc2 z (List.mem_cons_of_mem _ hz)) ds1 h2 x hx2
        exact haux es hsz hmem ds heq
    | Comparison a op b =>
      simp only [distributionInternal] at hok
      simp only [allDicePositive, Bool.and_eq_true] at hdice
      have hspec : sizeOf (Expression.Comparison a op b)
          = 1 + sizeOf a + sizeOf op + sizeOf b := by
        simp
      cases h1 : distributionInternal toStr a with
      | error err => rw [h1] at hok; exact absurd hok (by simp)
      | ok da =>
        rw [h1] at hok
        cases h2 : distributionInternal toStr b with
        | error err => rw [h2] at hok; exact absurd hok (by simp)
        | ok db =>
          rw [h2] at hok
          simp only at hok
          injection hok with hd
          rw [← hd]
          have ha := ih (sizeOf a) (by omega) toStr a le_rfl hdice.1 da h1
          have hb := ih (sizeOf b) (by omega) toStr b le_rfl hdice.2 db h2
          exact comparison_total_pos da op db ha hb

/-! ### Claim theorems -/

/-- C1: for every pair of distributions `a` and `b`, the convolution `a + b`
has, at every integer `v`, occurrence count equal to the sum over all pairs
`(v1, v2)` with `v1 + v2 = v` of `a`'s occurrence at `v1` times `b`'s
occurrence at `v2` (stated as a sum over any finite set `S` covering `a`'s
support — all omitted terms vanish), and `(a+b).total = a.total * b.total`
exactly. -/
theorem claim1_add_convolution (a b : Distribution) (S : Finset ℤ)
    (hS : ∀ w : ℤ, Distribution.occAt a w ≠ 0 → w ∈ S) (v : ℤ) :
    Distribution.occAt (Distribution.add a b) v
        = ∑ w ∈ S, Distribution.occAt a w * Distribution.occAt b (v - w)
      ∧ (Distribution.add a b).total = a.total * b.total := by
  constructor
  · rw [Distribution.occAt_add_eq_range]
    exact (Distribution.sum_occAt_mul a (fun w => Distribution.occAt b (v - w)) S hS).symm
  · exact total_add_mul a b

/-- Witness for C1 at `a = b = die 2`, `S = {1, 2}`, `v = 3`. -/
theorem claim1_witness :
    Distribution.occAt
        (Distribution.add (Distribution.die 2) (Distribution.die 2)) 3
        = ∑ w ∈ ({1, 2} : Finset ℤ),
            Distribution.occAt (Distribution.die 2) w
              * Distribution.occAt (Distribution.die 2) (3 - w)
      ∧ (Distribution.add (Distribution.die 2) (Distribution.die 2)).total
          = (Distribution.die 2).total * (Distribution.die 2).total := by
  apply claim1_add_convolution
  intro w hw
  have hsupp := Distribution.occAt_support _ _ hw
  simp only [Distribution.die, List.length_replicate] at hsupp
  simp only [Finset.mem_insert, Finset.mem_singleton]
  omega

/-- C2 counterexample: the zero-faced die `Die 0` evaluates successfully via
the public entry point, yet its result has `total = 0`, refuting the claim's
`total() > 0` part.  (The canonical-form part is vacuous for the empty
table.) -/
theorem claim2_counterexample :
    distribution (fun _ => "") (Expression.Die 0) = .ok ⟨[], 1⟩
      ∧ ¬ (0 < (⟨[], 1⟩ : Distribution).total) := ⟨rfl, by decide⟩

/-- C2 (amended: restricted to expressions whose dice all have at least one
face): whenever `distribution()` succeeds, the result is canonical — its
first and last stored entries are non-zero — and its total is positive. -/
theorem claim2_canonical_total_pos (toStr : Expression → String) (e : Expression)
    (hdice : allDicePositive e = true) (d : Distribution)
    (hok : distribution toStr e = .ok d) :
    d.occurrence_by_value.head? ≠ some 0
      ∧ d.occurrence_by_value.getLast? ≠ some 0
      ∧ 0 < d.total := by
  unfold distribution at hok
  cases heq : distributionInternal toStr e with
  | error err =>
    rw [heq] at hok
    exact absurd hok (by simp [Except.map])
  | ok d0 =>
    rw [heq] at hok
    simp only [Except.map] at hok
    injection hok with hd
    rw [← hd]
    refine ⟨Distribution.clean_head_ne d0, Distribution.clean_last_ne d0, ?_⟩
    rw [Distribution.clean_total]
    exact internalTotalPos (sizeOf e) toStr e le_rfl hdice d0 heq

/-- Witness for C2 (amended) at the expression `Die 2`. -/
theorem claim2_witness :
    (⟨[1, 1], 1⟩ : Distribution).occurrence_by_value.head? ≠ some 0
      ∧ (⟨[1, 1], 1⟩ : Distribution).occurrence_by_value.getLast? ≠ some 0
      ∧ 0 < (⟨[1, 1], 1⟩ : Distribution).total :=
  claim2_canonical_total_pos (fun _ => "") (.Die 2) rfl ⟨[1, 1], 1⟩ rfl

/-- C3: repetition fails with the negative-count error (tagged with the
expression's text) exactly when `count.min() < 0`; otherwise it fails with
the keep-too-few error (tagged likewise) exactly when
`count.min() < ranker.count()`; in all remaining cases it returns `Ok`.
Both error cases hold for every `value` distribution, showing the checks
use only `count.min()` and precede any enumeration. -/
theorem claim3_repeat_preconditions (toStr : Expression → String) (e : Expression)
    (count value : Distribution) (ranker : Ranker) :
    (count.min < 0 →
        repeatDist toStr e count value ranker = .error (.NegativeCount (toStr e)))
      ∧ (¬ count.min < 0 → count.min.toNat < ranker.count →
        repeatDist toStr e count value ranker = .error (.KeepTooFew (toStr e)))
      ∧ (¬ count.min < 0 → ¬ count.min.toNat < ranker.count →
        ∃ d, repeatDist toStr e count value ranker = .ok d) :=
  ⟨repeatDist_negative toStr e count value ranker,
   fun h1 h2 => repeatDist_keepTooFew toStr e count value ranker h1 h2,
   fun h1 h2 => repeatDist_isOk toStr e count value ranker h1 h2⟩

/-- Witness for C3: a negative count errs, keeping 3 of 2 errs, and `2d4`
succeeds. -/
theorem claim3_witness :
    repeatDist (fun _ => "") (.Modifier 0) (Distribution.modifier (-1))
        (Distribution.die 4) .All = .error (.NegativeCount "")
      ∧ repeatDist (fun _ => "") (.Modifier 0) (Distribution.modifier 2)
        (Distribution.die 4) (.Highest 3) = .error (.KeepTooFew "")
      ∧ ∃ d, repeatDist (fun _ => "") (.Modifier 0) (Distribution.modifier 2)
        (Distribution.die 4) .All = .ok d :=
  ⟨(claim3_repeat_preconditions _ _ _ _ _).1 (by decide),
   (claim3_repeat_preconditions _ _ _ _ _).2.1 (by decide) (by decide),
   (claim3_repeat_preconditions _ _ _ _ _).2.2 (by decide) (by decide)⟩

/-- C4: floor-division of evaluated distributions fails with the
divide-by-zero error (tagged with the expression's text) if and only if the
divisor has nonzero probability at 0; when the probability at 0 is zero no
division error occurs and the cross-product quotient distribution is
returned directly — the check precedes the division loop. -/
theorem claim4_divide_by_zero (toStr : Expression → String) (e : Expression)
    (a b : Distribution) (hb : 0 < b.total) :
    (floorDist toStr e a b = .error (.DivideByZero (toStr e))
        ↔ b.probability 0 ≠ 0)
      ∧ (b.probability 0 = 0 →
        floorDist toStr e a b = .ok (Distribution.combineWith Int.tdiv a b)) := by
  have hnum : (b.probability 0).num ≠ 0 ↔ b.probability 0 ≠ 0 := Rat.num_ne_zero
  constructor
  · constructor
    · intro h
      by_contra hz
      unfold floorDist at h
      rw [if_neg (by simp [hnum, hz])] at h
      exact absurd h (by simp)
    · intro h
      unfold floorDist
      rw [if_pos (hnum.mpr h)]
  · intro h
    unfold floorDist
    rw [if_neg (by simp [hnum, h])]

/-- Witness for C4: dividing by `die 2` (which cannot be 0) succeeds. -/
theorem claim4_witness :
    floorDist (fun _ => "") (.Modifier 0) (Distribution.die 4) (Distribution.die 2)
      = .ok (Distribution.combineWith Int.tdiv (Distribution.die 4)
          (Distribution.die 2)) :=
  (claim4_divide_by_zero (fun _ => "") (.Modifier 0) (Distribution.die 4)
    (Distribution.die 2) (by decide)).2 (by decide)

/-- C5: if the accumulated comparison distribution has probability exactly 1
at 0 the result is the point mass `modifier(0)`, and if it has probability
exactly 1 at 1 the result is `modifier(1)`; in both collapsed cases the
result is single-valued with total occurrence 1. -/
theorem claim5_comparison_collapse (a : Distribution) (op : ComparisonOp)
    (b : Distribution) :
    ((comparisonAccum a op b).probability 0 = 1 →
        comparison a op b = Distribution.modifier 0
          ∧ (comparison a op b).occurrence_by_value.length = 1
          ∧ (comparison a op b).total = 1)
      ∧ ((comparisonAccum a op b).probability 1 = 1 →
        comparison a op b = Distribution.modifier 1
          ∧ (comparison a op b).occurrence_by_value.length = 1
          ∧ (comparison a op b).total = 1) := by
  constructor
  · intro h0
    have hcomp : comparison a op b = Distribution.modifier 0 := by
      rw [comparison_eq_ite, if_pos h0]
    exact ⟨hcomp, by rw [hcomp]; rfl, by rw [hcomp]; rfl⟩
  · intro h1
    have h0 : ¬ (comparisonAccum a op b).probability 0 = 1 := by
      intro h0
      have h01 := Distribution.probability_one_unique
        (comparisonAccum a op b) 0 1 h0 h1
      exact absurd h01 (by decide)
    have hcomp : comparison a op b = Distribution.modifier 1 := by
      rw [comparison_eq_ite, if_neg h0, if_pos h1]
    exact ⟨hcomp, by rw [hcomp]; rfl, by rw [hcomp]; rfl⟩

/-- Witness for C5 at `1d4 < 0` (always false). -/
theorem claim5_witness :
    comparison (Distribution.die 4) ComparisonOp.Lt (Distribution.modifier 0)
        = Distribution.modifier 0
      ∧ (comparison (Distribution.die 4) ComparisonOp.Lt
          (Distribution.modifier 0)).occurrence_by_value.length = 1
      ∧ (comparison (Distribution.die 4) ComparisonOp.Lt
          (Distribution.modifier 0)).total = 1 :=
  (claim5_comparison_collapse (Distribution.die 4) ComparisonOp.Lt
    (Distribution.modifier 0)).1 (by
      have hacc : comparisonAccum (Distribution.die 4) ComparisonOp.Lt
          (Distribution.modifier 0) = ⟨[4], 0⟩ := rfl
      rw [hacc]
      norm_num [Distribution.probability, Distribution.total])

/-- C6: for every non-empty distribution `d`, negation reflects it about
zero — `probability (-d) v = probability d (-v)` for every `v`, the negated
offset is the negation of `d`'s maximum value, and `-(-d) = d` (hence the
occurrence multiset is preserved). -/
theorem claim6_neg_reflection (d : Distribution) (h : d.occurrence_by_value ≠ []) :
    (∀ v : ℤ, d.neg.probability v = d.probability (-v))
      ∧ d.neg.offset = -d.max
      ∧ d.neg.neg = d :=
  ⟨Distribution.probability_neg d h, Distribution.neg_offset d,
   Distribution.neg_neg_eq d⟩

/-- Witness for C6 at `die 4`. -/
theorem claim6_witness :
    (∀ v : ℤ, (Distribution.die 4).neg.probability v
        = (Distribution.die 4).probability (-v))
      ∧ (Distribution.die 4).neg.offset = -(Distribution.die 4).max
      ∧ (Distribution.die 4).neg.neg = Distribution.die 4 :=
  claim6_neg_reflection (Distribution.die 4) (by decide)

/-- C7: evaluating the repetition node for `2d4` (count = point mass at 2,
per-die value = die 4, ranker = All) yields exactly the probability table
`{2:1/16, 3:2/16, 4:3/16, 5:4/16, 6:3/16, 7:2/16, 8:1/16}`, with
probability 0 at every other integer. -/
theorem claim7_two_d4 :
    ∃ D, repeatDist (fun _ => "") (Expression.Modifier 0)
        (Distribution.modifier 2) (Distribution.die 4) Ranker.All = .ok D
      ∧ ∀ v : ℤ, D.probability v
          = if v = 2 then 1/16 else if v = 3 then 2/16 else if v = 4 then 3/16
            else if v = 5 then 4/16 else if v = 6 then 3/16
            else if v = 7 then 2/16 else if v = 8 then 1/16 else 0 := by
  refine ⟨⟨[0, 0, 1, 2, 3, 4, 3, 2, 1], 0⟩, rfl, ?_⟩
  intro v
  by_cases hin : 0 ≤ v ∧ v < 9
  · obtain ⟨hl, hr⟩ := hin
    have etot : (⟨[0, 0, 1, 2, 3, 4, 3, 2, 1], 0⟩ : Distribution).total = 16 := by
      decide
    have e0 : Distribution.occAt ⟨[0, 0, 1, 2, 3, 4, 3, 2, 1], 0⟩ 0 = 0 := by decide
    have e1 : Distribution.occAt ⟨[0, 0, 1, 2, 3, 4, 3, 2, 1], 0⟩ 1 = 0 := by decide
    have e2 : Distribution.occAt ⟨[0, 0, 1, 2, 3, 4, 3, 2, 1], 0⟩ 2 = 1 := by decide
    have e3 : Distribution.occAt ⟨[0, 0, 1, 2, 3, 4, 3, 2, 1], 0⟩ 3 = 2 := by decide
    have e4 : Distribution.occAt ⟨[0, 0, 1, 2, 3, 4, 3, 2, 1], 0⟩ 4 = 3 := by decide
    have e5 : Distribution.occAt ⟨[0, 0, 1, 2, 3, 4, 3, 2, 1], 0⟩ 5 = 4 := by decide
    have e6 : Distribution.occAt ⟨[0, 0, 1, 2, 3, 4, 3, 2, 1], 0⟩ 6 = 3 := by decide
    have e7 : Distribution.occAt ⟨[0, 0, 1, 2, 3, 4, 3, 2, 1], 0⟩ 7 = 2 := by decide
    have e8 : Distribution.occAt ⟨[0, 0, 1, 2, 3, 4, 3, 2, 1], 0⟩ 8 = 1 := by decide
    rw [Distribution.probability_eq_occAt, etot]
    interval_cases v <;> norm_num [e0, e1, e2, e3, e4, e5, e6, e7, e8]
  · push_neg at hin
    have hocc : Distribution.occAt ⟨[0, 0, 1, 2, 3, 4, 3, 2, 1], 0⟩ v = 0 := by
      rcases lt_or_le v 0 with hv | hv
      · exact Distribution.occAt_of_lt _ _ hv
      · rw [Distribution.occAt_of_le (⟨[0, 0, 1, 2, 3, 4, 3, 2, 1], 0⟩ : Distribution)
          _ hv]
        exact List.getD_eq_default _ _ (by show 9 ≤ (v - 0).toNat; omega)
    rw [Distribution.probability_eq_occAt, hocc]
    rw [if_neg (by omega), if_neg (by omega), if_neg (by omega),
      if_neg (by omega), if_neg (by omega), if_neg (by omega),
      if_neg (by omega)]
    simp

/-- C8: for every `n ≥ 1`, `die n` assigns probability exactly `1/n` to
every integer in `[1, n]` and probability 0 to every other integer. -/
theorem claim8_die_uniform (n : Nat) (h : 1 ≤ n) (v : Int) :
    (Distribution.die n).probability v
      = if 1 ≤ v ∧ v ≤ (n : Int) then 1 / (n : ℚ) else 0 := by
  rw [Distribution.probability_eq_occAt, Distribution.total_die]
  by_cases hv : 1 ≤ v ∧ v ≤ (n : Int)
  · rw [if_pos hv]
    have hocc : Distribution.occAt (Distribution.die n) v = 1 := by
      rw [Distribution.occAt_of_le _ _ (by show (1 : ℤ) ≤ v; omega)]
      show (List.replicate n 1).getD (v - 1).toNat 0 = 1
      rw [List.getD_eq_getElem?_getD, List.getElem?_replicate,
        if_pos (by omega)]
      rfl
    rw [hocc]
    simp
  · rw [if_neg hv]
    push_neg at hv
    have hocc : Distribution.occAt (Distribution.die n) v = 0 := by
      by_contra h0
      have hs := Distribution.occAt_support _ _ h0
      simp only [Distribution.die, List.length_replicate] at hs
      omega
    rw [hocc]
    simp

/-- Witness for C8 at `die 6`, `v = 4`. -/
theorem claim8_witness :
    (Distribution.die 6).probability 4
      = if 1 ≤ (4 : ℤ) ∧ (4 : ℤ) ≤ ((6 : Nat) : Int) then 1 / ((6 : Nat) : ℚ)
        else 0 :=
  claim8_die_uniform 6 (by decide) 4

/-- C9: over well-formed distributions (`total > 0`) the operations never
fail: negation's single panic site (the `len - 1` underflow) cannot fire,
`probability` never panics (its `Ratio::new` denominator is nonzero) and
returns the exact rational `occurrence/total` inside the stored range and 0
outside it.  Addition, product and comparison contain no failure site and
are total functions of the embedding by construction. -/
theorem claim9_operations_total (a : Distribution) (ha : 0 < a.total) :
    Distribution.negChecked a = some a.neg
      ∧ (∀ v : ℤ, Distribution.probabilityChecked a v = some (a.probability v))
      ∧ (∀ v : ℤ, a.probability v
          = (Distribution.occAt a v : ℚ) / (a.total : ℚ))
      ∧ (∀ v : ℤ, (v < a.min ∨ a.max < v) → a.probability v = 0) := by
  have hne : a.occurrence_by_value ≠ [] := Distribution.total_pos_nonempty a ha
  refine ⟨?_, ?_, ?_, ?_⟩
  · unfold Distribution.negChecked
    rw [if_neg (by simpa using hne)]
  · intro v
    simp only [Distribution.probabilityChecked, Distribution.probability]
    split
    · rw [if_neg (by omega)]
    · rfl
  · intro v
    exact Distribution.probability_eq_occAt a v
  · intro v hv
    rw [Distribution.probability_eq_occAt]
    have hocc : Distribution.occAt a v = 0 := by
      by_contra h0
      have hs := Distribution.occAt_support a v h0
      unfold Distribution.min Distribution.max at hv
      have hlen : 1 ≤ a.occurrence_by_value.length := List.length_pos.mpr hne
      omega
    rw [hocc]
    simp

/-- Witness for C9 at `die 3`. -/
theorem claim9_witness :
    Distribution.negChecked (Distribution.die 3) = some (Distribution.die 3).neg
      ∧ (∀ v : ℤ, Distribution.probabilityChecked (Distribution.die 3) v
          = some ((Distribution.die 3).probability v))
      ∧ (∀ v : ℤ, (Distribution.die 3).probability v
          = (Distribution.occAt (Distribution.die 3) v : ℚ)
              / ((Distribution.die 3).total : ℚ))
      ∧ (∀ v : ℤ, (v < (Distribution.die 3).min ∨ (Distribution.die 3).max < v) →
          (Distribution.die 3).probability v = 0) :=
  claim9_operations_total (Distribution.die 3) (by decide)

/-- C10: for distributions with positive totals, `product(a, b)` satisfies
`total = a.total * b.total`, and whenever floor-division succeeds its result
satisfies the same multiplicative total law. -/
theorem claim10_product_floor_total (a b : Distribution) (ha : 0 < a.total)
    (hb : 0 < b.total) (toStr : Expression → String) (e : Expression) :
    (product a b).total = a.total * b.total
      ∧ (∀ d, floorDist toStr e a b = .ok d → d.total = a.total * b.total) := by
  refine ⟨total_product_mul a b, ?_⟩
  intro d hok
  unfold floorDist at hok
  by_cases hz : (b.probability 0).num ≠ 0
  · rw [if_pos hz] at hok
    exact absurd hok (by simp)
  · rw [if_neg hz] at hok
    injection hok with hd
    rw [← hd]
    exact Distribution.total_combineWith _ a b

/-- Witness for C10 at `die 4` and `die 2`. -/
theorem claim10_witness :
    (product (Distribution.die 4) (Distribution.die 2)).total
        = (Distribution.die 4).total * (Distribution.die 2).total
      ∧ (∀ d, floorDist (fun _ => "") (.Modifier 0) (Distribution.die 4)
            (Distribution.die 2) = .ok d →
          d.total = (Distribution.die 4).total * (Distribution.die 2).total) :=
  claim10_product_floor_total (Distribution.die 4) (Distribution.die 2)
    (by decide) (by decide) (fun _ => "") (.Modifier 0)

end Dicer
